import Mathlib

/-!
Verification of the writing-mode comparison core of scripture-srs
(`src/app.jsx`: `graphemesWithRanges`, `normalizeForCompare`, `lcsMatchMask`,
`diffCharsLCS`, `defaultWritingOptions`).

Modelling conventions:
* A JavaScript string is modelled as `List Char` (one `Char` per code point);
  raw offsets are indices into that list.  The `Intl.Segmenter` branch of
  `graphemesWithRanges` is platform-dependent, so the embedding uses the
  source's deterministic fallback, which emits one cluster per code point.
* Platform-supplied Unicode behaviour that is not part of the repository
  (the `\s` and `[\p{P}\p{S}]` character classes, `toLocaleLowerCase`,
  `String.normalize("NFC")`) is bundled in a `Platform` record and passed
  explicitly; theorems quantify over it.  `asciiPlatform` instantiates it
  with functions that agree with the JavaScript runtime on the ASCII
  characters used in concrete evaluations.
* The LCS dynamic-programming table is embedded as a recursion on the pair
  of table indices; a fuel argument (the sum of the indices, which bounds
  the recursion depth) keeps the definition structurally recursive and
  hence kernel-computable.
-/

/-- A JavaScript string, one `Char` per code point. -/
abbrev Str := List Char

/-- The seven boolean toggles of the writing-comparison options object. -/
structure WOpts where
  nfc : Bool
  trim : Bool
  collapseWS : Bool
  ignorePunct : Bool
  caseInsensitive : Bool
  normalizeQuoteHyphen : Bool
  stripZeroWidth : Bool
deriving DecidableEq, Repr

/-- Source `defaultWritingOptions()`: nfc, trim, normalizeQuoteHyphen and
stripZeroWidth on; collapseWS, ignorePunct and caseInsensitive off. -/
def defaultWritingOptions : WOpts :=
  { nfc := true, trim := true, collapseWS := false, ignorePunct := false,
    caseInsensitive := false, normalizeQuoteHyphen := true, stripZeroWidth := true }

/-- Platform-supplied Unicode behaviour used by the source but not defined in
it: the `\s` regex class per character, the `[\p{P}\p{S}]` regex class per
character, `toLocaleLowerCase` and `String.normalize("NFC")` on a cluster. -/
structure Platform where
  isWS : Char → Bool
  isPunct : Char → Bool
  lower : Str → Str
  nfc : Str → Str

/-- A grapheme cluster with its raw half-open range `[start, stop)`. -/
structure Cluster where
  start : Nat
  stop : Nat
  str : Str
deriving DecidableEq, Repr

/-- Code-point fallback of `graphemesWithRanges`, emitting clusters from
raw offset `k` on: each code point is one cluster of width 1. -/
def graphemesFrom : Nat → Str → List Cluster
  | _, [] => []
  | k, c :: cs => ⟨k, k + 1, [c]⟩ :: graphemesFrom (k + 1) cs

/-- Source `graphemesWithRanges` (deterministic code-point fallback). -/
def graphemesWithRanges (s : Str) : List Cluster :=
  graphemesFrom 0 s

/-- Membership in the source's `ZW_RE` class: ZWSP, ZWNJ, ZWJ, BOM. -/
def isZW (c : Char) : Bool :=
  c = '\u200B' || c = '\u200C' || c = '\u200D' || c = '\uFEFF'

/-- Source `raw.replace(ZW_RE, "").replace(new RegExp(NBSP, "g"), " ")`:
delete zero-width characters, then turn NBSP into a plain space. -/
def stripZW (s : Str) : Str :=
  (s.filter fun c => !isZW c).map fun c => if c = '\u00A0' then ' ' else c

/-- Source `isWhitespaceCluster`: `WS_RE.test(s) || s === NBSP`. -/
def isWhitespaceCluster (P : Platform) (s : Str) : Bool :=
  s.any P.isWS || s = ['\u00A0']

/-- Source `isPunctCluster`: `PUNCT_RE.test(s)`. -/
def isPunctCluster (P : Platform) (s : Str) : Bool :=
  s.any P.isPunct

/-- One character's image under the source `mapQuotesHyphens` replacements. -/
def mapQHChar (c : Char) : Str :=
  if c = '\u2018' || c = '\u2019' || c = '\u201B' || c = '\u2032' then ['\'']
  else if c = '\u201C' || c = '\u201D' || c = '\u2033' then ['"']
  else if c = '\u2012' || c = '\u2013' || c = '\u2014' || c = '\u2015' || c = '\u2212' then ['-']
  else if c = '\u2026' then ['.', '.', '.']
  else [c]

/-- Source `mapQuotesHyphens`: quote variants to straight quotes, dash
variants to hyphen-minus, the ellipsis glyph to three periods. -/
def mapQuotesHyphens (s : Str) : Str :=
  (s.map mapQHChar).flatten

/-- One entry of the source's `pre` array: the cluster's raw range and raw
text together with the `keep`/`isWS`/`key` fields decided by the loop. -/
structure PreUnit where
  start : Nat
  stop : Nat
  str : Str
  keep : Bool
  isWS : Bool
  key : Str
deriving DecidableEq, Repr

/-- One iteration of the cluster loop of `normalizeForCompare`: from the
previous `prevKeptWasWS` state and a cluster, produce the pushed `pre`
entry and the next `prevKeptWasWS` state (unchanged on every `continue`
path, `wasWS` on the kept path, exactly as in the source). -/
def normStep (P : Platform) (opts : WOpts) (prevKeptWasWS : Bool) (c : Cluster) :
    PreUnit × Bool :=
  let raw0 := if opts.stripZeroWidth then stripZW c.str else c.str
  if raw0 = [] then
    (⟨c.start, c.stop, c.str, false, false, []⟩, prevKeptWasWS)
  else
    let raw1 := if opts.normalizeQuoteHyphen then mapQuotesHyphens raw0 else raw0
    let raw2 := if opts.caseInsensitive then P.lower raw1 else raw1
    let raw3 := if opts.nfc then P.nfc raw2 else raw2
    let wasWS := isWhitespaceCluster P raw3
    if opts.ignorePunct && !wasWS && isPunctCluster P raw3 then
      (⟨c.start, c.stop, c.str, false, false, []⟩, prevKeptWasWS)
    else if opts.collapseWS && wasWS && prevKeptWasWS then
      (⟨c.start, c.stop, c.str, false, true, []⟩, prevKeptWasWS)
    else
      let key := if opts.collapseWS && wasWS then [' '] else raw3
      (⟨c.start, c.stop, c.str, true, wasWS, key⟩, wasWS)

/-- The cluster loop of `normalizeForCompare`, threading `prevKeptWasWS`. -/
def normLoop (P : Platform) (opts : WOpts) : Bool → List Cluster → List PreUnit
  | _, [] => []
  | prev, c :: cs =>
    let r := normStep P opts prev c
    r.1 :: normLoop P opts r.2 cs

/-- The source's leading-trim loop: walking from the front, clear `keep` on
entries while they are kept whitespace, stopping at the first entry that is
not (so a dropped entry blocks the walk, as in the source). -/
def trimFront : List PreUnit → List PreUnit
  | [] => []
  | p :: ps =>
    if p.keep && p.isWS then { p with keep := false } :: trimFront ps
    else p :: ps

/-- Both trim loops of `normalizeForCompare` (step 2): the leading walk,
then the trailing walk, the latter being the leading walk on the reversed
list. -/
def trimEdges (opts : WOpts) (pre : List PreUnit) : List PreUnit :=
  if opts.trim then (trimFront ((trimFront pre).reverse)).reverse else pre

/-- A comparison unit surviving elision: raw range plus comparison key. -/
structure CompUnit where
  rawStart : Nat
  rawEnd : Nat
  key : Str
deriving DecidableEq, Repr

instance : Inhabited CompUnit := ⟨⟨0, 0, []⟩⟩

/-- The source's `rawToUnit` array: for every raw offset the index of the
kept unit covering it, `-1` where no kept unit covers the offset. -/
def buildRawToUnit (units : List CompUnit) (len : Nat) : List Int :=
  (List.range len).map fun i =>
    match units.findIdx? (fun u => u.rawStart ≤ i && i < u.rawEnd) with
    | some k => (k : Int)
    | none => -1

/-- Result record of `normalizeForCompare`. -/
structure NormResult where
  keys : List Str
  units : List CompUnit
  rawToUnit : List Int
  rawLength : Nat
deriving Repr

/-- Source `normalizeForCompare(text, opts)`: tokenize, run the cluster
loop, trim the edges, and keep the surviving units with their keys. -/
def normalizeForCompare (P : Platform) (text : Str) (opts : WOpts) : NormResult :=
  let pre := trimEdges opts (normLoop P opts false (graphemesWithRanges text))
  let units := (pre.filter fun p => p.keep).map fun p => ⟨p.start, p.stop, p.key⟩
  { keys := units.map fun u => u.key
    units := units
    rawToUnit := buildRawToUnit units text.length
    rawLength := text.length }

/-- The DP table of `lcsMatchMask` with an explicit fuel (the sum of the two
indices bounds the recursion depth): `lcsLenF a b fuel i j` is `dp[i][j]`
whenever `i + j ≤ fuel`. -/
def lcsLenF (a b : List Str) : Nat → Nat → Nat → Nat
  | 0, _, _ => 0
  | _ + 1, 0, _ => 0
  | _ + 1, _ + 1, 0 => 0
  | fuel + 1, i + 1, j + 1 =>
    if a.getD i [] = b.getD j [] then lcsLenF a b fuel i j + 1
    else max (lcsLenF a b fuel i (j + 1)) (lcsLenF a b fuel (i + 1) j)

/-- `dp[i][j]` of the source's LCS table: the entry for the first `i` typed
keys against the first `j` reference keys. -/
def lcsLen (a b : List Str) (i j : Nat) : Nat :=
  lcsLenF a b (i + j) i j

/-- The backtrack loop of `lcsMatchMask` with fuel, returning the list of
typed indices marked `true`, in the (descending) order they are visited. -/
def lcsBackF (a b : List Str) : Nat → Nat → Nat → List Nat
  | 0, _, _ => []
  | _ + 1, 0, _ => []
  | _ + 1, _ + 1, 0 => []
  | fuel + 1, i + 1, j + 1 =>
    if a.getD i [] = b.getD j [] then i :: lcsBackF a b fuel i j
    else if lcsLen a b i (j + 1) ≥ lcsLen a b (i + 1) j then lcsBackF a b fuel i (j + 1)
    else lcsBackF a b fuel (i + 1) j

/-- The backtrack of the source's `lcsMatchMask` from `dp[i][j]`. -/
def lcsBack (a b : List Str) (i j : Nat) : List Nat :=
  lcsBackF a b (i + j) i j

/-- Source `lcsMatchMask(aKeys, bKeys)`: boolean mask over `aKeys` marking
the positions visited on the match branch of the backtrack. -/
def lcsMatchMask (a b : List Str) : List Bool :=
  let marked := lcsBack a b a.length b.length
  (List.range a.length).map fun i => marked.contains i

/-- One output run: the raw typed text of the span and its match state
(`none` is the source's `ok: null`, i.e. a neutral dropped span). -/
structure Run where
  text : Str
  ok : Option Bool
deriving DecidableEq, Repr

/-- JavaScript `s.slice(a, b)` for `a ≤ b`. -/
def strSlice (s : Str) (a b : Nat) : Str :=
  (s.drop a).take (b - a)

/-- The run-building loop of `diffCharsLCS`: `pos` is the current raw
offset, `u` the index of the next kept unit (used to index the mask);
a gap before a unit yields a neutral run, each kept unit yields a run
with `ok := mask[u]`, and a final gap yields a trailing neutral run. -/
def buildRunsAux (typedRaw : Str) (mask : List Bool) : Nat → Nat → List CompUnit → List Run
  | pos, _, [] =>
    if pos < typedRaw.length then [⟨typedRaw.drop pos, none⟩] else []
  | pos, u, unit :: rest =>
    (if pos < unit.rawStart then [Run.mk (strSlice typedRaw pos unit.rawStart) none] else [])
      ++ Run.mk (strSlice typedRaw unit.rawStart unit.rawEnd) (some (mask.getD u false))
      :: buildRunsAux typedRaw mask unit.rawEnd (u + 1) rest

/-- Length of the longest common prefix of two key sequences.  This is the
inner `while` loop of the boundary search: starting at reference offset
`s`, the loop advances `m` while `m < |tk|`, `s + m < |gk|` and
`tk[m] = gk[s+m]`, i.e. it computes the common-prefix length of `tk` and
`gk.drop s`. -/
def contigLen : List Str → List Str → Nat
  | a :: as, b :: bs => if a = b then contigLen as bs + 1 else 0
  | _, _ => 0

/-- The contiguous match length the boundary search measures at offset `s`. -/
def contigAt (tk gk : List Str) (s : Nat) : Nat :=
  contigLen tk (gk.drop s)

/-- The boundary-search loop of `diffCharsLCS` over the candidate start
offsets, carrying `(startIdx, matchedLen)`: skip offsets whose key differs
from `tk[0]`, otherwise measure the contiguous run, keep it if strictly
longer than the current best, and break once the whole typed sequence
matched. -/
def scanLoop (tk gk : List Str) : List Nat → Option Nat × Nat → Option Nat × Nat
  | [], best => best
  | s :: rest, best =>
    if tk.getD 0 [] = gk.getD s [] then
      let m := contigLen tk (gk.drop s)
      let best' := if best.2 < m then (some s, m) else best
      if m = tk.length then best' else scanLoop tk gk rest best'
    else scanLoop tk gk rest best

/-- The whole boundary search: run `scanLoop` over all reference offsets,
skipped entirely when the typed key sequence is empty. -/
def boundaryScan (tk gk : List Str) : Option Nat × Nat :=
  if 0 < tk.length then scanLoop tk gk (List.range gk.length) (none, 0) else (none, 0)

/-- The immutable result record of `diffCharsLCS`. -/
structure DiffResult where
  runs : List Run
  exact : Bool
  missingHeadRaw : Str
  missingHeadEndRawIndex : Option Nat
  missingTailRaw : Str
  missingTailStartRawIndex : Option Nat
  midStartRawIndex : Option Nat
  midEndRawIndex : Option Nat
deriving Repr

/-- Source `diffCharsLCS(typedRaw, targetRaw, opts)`.  `exact` is the
source's length check followed by the elementwise key comparison, i.e.
equality of the two key lists.  The head/tail/mid fields follow the
source: the tail is asserted whenever an anchor `startIdx` was found and
`startIdx + T.keys.length` is still inside the reference units (the tail
is measured by the typed length, not by `matchedLen`); the head is
asserted when `startIdx > 0`; the mid span uses `matchedLen`.  Reference
unit lookups use `getD` (the source indexes in range). -/
def diffCharsLCS (P : Platform) (typedRaw targetRaw : Str) (opts : WOpts) : DiffResult :=
  let T := normalizeForCompare P typedRaw opts
  let G := normalizeForCompare P targetRaw opts
  let exact := decide (T.keys = G.keys)
  let mask := lcsMatchMask T.keys G.keys
  let runs := buildRunsAux typedRaw mask 0 0 T.units
  let bs := boundaryScan T.keys G.keys
  let missingTailStartRawIndex :=
    match bs.1 with
    | some s =>
      if s + T.keys.length < G.units.length then
        some ((G.units.getD (s + T.keys.length) default).rawStart)
      else none
    | none => none
  let missingTailRaw :=
    match missingTailStartRawIndex with
    | some i => targetRaw.drop i
    | none => []
  let missingHeadEndRawIndex :=
    match bs.1 with
    | some s => if 0 < s then some ((G.units.getD s default).rawStart) else none
    | none => none
  let missingHeadRaw :=
    match missingHeadEndRawIndex with
    | some i => targetRaw.take i
    | none => []
  let midStartRawIndex :=
    match bs.1 with
    | some s => some ((G.units.getD s default).rawStart)
    | none => none
  let midEndRawIndex :=
    match bs.1 with
    | some s =>
      some (if 0 < bs.2 then (G.units.getD (s + bs.2 - 1) default).rawEnd
            else (G.units.getD s default).rawStart)
    | none => none
  { runs := runs, exact := exact
    missingHeadRaw := missingHeadRaw, missingHeadEndRawIndex := missingHeadEndRawIndex
    missingTailRaw := missingTailRaw, missingTailStartRawIndex := missingTailStartRawIndex
    midStartRawIndex := midStartRawIndex, midEndRawIndex := midEndRawIndex }

/-- A concrete platform whose four functions agree with the JavaScript
runtime on ASCII input: `\s` restricted to ASCII whitespace,
`[\p{P}\p{S}]` restricted to (a sufficient set of) ASCII punctuation and
symbols, per-character ASCII lowercasing, and NFC, which is the identity
on ASCII strings.  Used to evaluate the model at concrete inputs. -/
def asciiPlatform : Platform where
  isWS c := c = ' ' || c = '\t' || c = '\n' || c = '\r' || c = '\x0b' || c = '\x0c'
  isPunct c :=
    c ∈ (['.', ',', ';', ':', '!', '?', '\'', '"', '-', '(', ')', '*', '+',
          '/', '<', '=', '>', '@', '#', '$', '%', '&', '_', '~', '^', '|'] : List Char)
  lower s := s.map Char.toLower
  nfc s := s

/-- The typed keys selected by a mask, in order: the formal reading of
"the positions of `aKeys` the mask marks, taken in order". -/
def maskedKeys (a : List Str) (mask : List Bool) : List Str :=
  ((List.range a.length).filter fun i => mask.getD i false).map fun i => a.getD i []

/-- Proof-side companion of `lcsBackF` returning the marked keys in
ascending order instead of the marked indices in descending order. -/
def lcsExtractF (a b : List Str) : Nat → Nat → Nat → List Str
  | 0, _, _ => []
  | _ + 1, 0, _ => []
  | _ + 1, _ + 1, 0 => []
  | fuel + 1, i + 1, j + 1 =>
    if a.getD i [] = b.getD j [] then lcsExtractF a b fuel i j ++ [a.getD i []]
    else if lcsLen a b i (j + 1) ≥ lcsLen a b (i + 1) j then lcsExtractF a b fuel i (j + 1)
    else lcsExtractF a b fuel (i + 1) j

/-- The key list extracted by the backtrack from `dp[i][j]`. -/
def lcsExtract (a b : List Str) (i j : Nat) : List Str :=
  lcsExtractF a b (i + j) i j

/-! ### Helper lemmas: run building covers the typed string -/

theorem drop_eq_strSlice_append (s : Str) {a b : Nat} (h : a ≤ b) :
    s.drop a = strSlice s a b ++ s.drop b := by
  have h1 : (s.drop a).take (b - a) ++ (s.drop a).drop (b - a) = s.drop a :=
    List.take_append_drop _ _
  rw [List.drop_drop, Nat.add_sub_cancel' h] at h1
  rw [strSlice]
  exact h1.symm

/-- The raw ranges of a unit list are ordered and start at or after `pos`. -/
def unitsChain : Nat → List CompUnit → Prop
  | _, [] => True
  | pos, u :: rest => pos ≤ u.rawStart ∧ u.rawStart ≤ u.rawEnd ∧ unitsChain u.rawEnd rest

theorem strSlice_self (s : Str) (a : Nat) : strSlice s a a = [] := by
  simp [strSlice]

theorem buildRunsAux_flatten (t : Str) (mask : List Bool) :
    ∀ (units : List CompUnit) (pos u : Nat), unitsChain pos units →
      ((buildRunsAux t mask pos u units).map fun r => r.text).flatten = t.drop pos
  | [], pos, u, _ => by
    simp only [buildRunsAux]
    split
    · simp
    · next h => simp [List.drop_eq_nil_of_le (Nat.le_of_not_lt h)]
  | unit :: rest, pos, u, h => by
    obtain ⟨h1, h2, h3⟩ := h
    have ih := buildRunsAux_flatten t mask rest unit.rawEnd (u + 1) h3
    simp only [buildRunsAux, List.map_append, List.flatten_append, List.map_cons,
      List.flatten_cons, ih]
    rw [drop_eq_strSlice_append t h1, drop_eq_strSlice_append t h2]
    split
    · simp
    · next hlt =>
      have hpa : pos = unit.rawStart := Nat.le_antisymm h1 (Nat.le_of_not_lt hlt)
      simp [hpa, strSlice_self]

/-- Projection of a `pre` entry to its raw range. -/
def preProj (p : PreUnit) : Nat × Nat := (p.start, p.stop)

/-- The raw ranges of a `pre` list are ordered and start at or after `pos`. -/
def preChain : Nat → List PreUnit → Prop
  | _, [] => True
  | pos, p :: rest => pos ≤ p.start ∧ p.start ≤ p.stop ∧ preChain p.stop rest

theorem normStep_proj (P : Platform) (opts : WOpts) (prev : Bool) (c : Cluster) :
    preProj (normStep P opts prev c).1 = (c.start, c.stop) := by
  simp only [normStep]
  repeat' split
  all_goals rfl

theorem preChain_congr :
    ∀ (l₁ l₂ : List PreUnit) (pos : Nat), l₁.map preProj = l₂.map preProj →
      preChain pos l₁ → preChain pos l₂
  | [], [], _, _, h => h
  | [], _ :: _, _, hm, _ => by simp at hm
  | _ :: _, [], _, hm, _ => by simp at hm
  | p :: ps, q :: qs, pos, hm, h => by
    simp only [List.map_cons, List.cons.injEq] at hm
    obtain ⟨hpq, hrest⟩ := hm
    obtain ⟨h1, h2, h3⟩ := h
    have hs : q.start = p.start := by
      have := congrArg Prod.fst hpq; simpa [preProj] using this.symm
    have ht : q.stop = p.stop := by
      have := congrArg Prod.snd hpq; simpa [preProj] using this.symm
    exact ⟨hs ▸ h1, by rw [hs, ht]; exact h2, ht ▸ preChain_congr ps qs p.stop hrest h3⟩

theorem normLoop_graphemes_chain (P : Platform) (opts : WOpts) :
    ∀ (s : Str) (k : Nat) (prev : Bool),
      preChain k (normLoop P opts prev (graphemesFrom k s))
  | [], _, _ => trivial
  | c :: cs, k, prev => by
    simp only [graphemesFrom, normLoop]
    have hp := normStep_proj P opts prev ⟨k, k + 1, [c]⟩
    refine ⟨?_, ?_, ?_⟩
    · have := congrArg Prod.fst hp; simp [preProj] at this; omega
    · have h1 := congrArg Prod.fst hp; have h2 := congrArg Prod.snd hp
      simp [preProj] at h1 h2; omega
    · have h2 := congrArg Prod.snd hp; simp [preProj] at h2
      rw [h2]
      exact normLoop_graphemes_chain P opts cs (k + 1) _

theorem trimFront_map_proj : ∀ l : List PreUnit, (trimFront l).map preProj = l.map preProj
  | [] => rfl
  | p :: ps => by
    simp only [trimFront]
    split
    · simp only [List.map_cons, trimFront_map_proj ps]
      rfl
    · rfl

theorem trimEdges_map_proj (opts : WOpts) (l : List PreUnit) :
    (trimEdges opts l).map preProj = l.map preProj := by
  simp only [trimEdges]
  split
  · rw [List.map_reverse, trimFront_map_proj, List.map_reverse, List.reverse_reverse,
      trimFront_map_proj]
  · rfl

theorem preChain_weaken {pos pos' : Nat} (h : pos ≤ pos') :
    ∀ {l : List PreUnit}, preChain pos' l → preChain pos l
  | [], _ => trivial
  | _ :: _, hc => ⟨Nat.le_trans h hc.1, hc.2.1, hc.2.2⟩

theorem unitsChain_of_preChain :
    ∀ (l : List PreUnit) (pos : Nat), preChain pos l →
      unitsChain pos ((l.filter fun p => p.keep).map fun p => (⟨p.start, p.stop, p.key⟩ : CompUnit))
  | [], _, _ => trivial
  | p :: ps, pos, h => by
    obtain ⟨h1, h2, h3⟩ := h
    by_cases hk : p.keep
    · simp only [List.filter_cons, hk, if_pos, List.map_cons]
      exact ⟨h1, h2, unitsChain_of_preChain ps p.stop h3⟩
    · simp only [List.filter_cons]
      rw [if_neg (by simpa using hk)]
      exact unitsChain_of_preChain ps pos (preChain_weaken (Nat.le_trans h1 h2) h3)

theorem normalizeForCompare_chain (P : Platform) (text : Str) (opts : WOpts) :
    unitsChain 0 (normalizeForCompare P text opts).units := by
  have hchain : preChain 0 (normLoop P opts false (graphemesWithRanges text)) :=
    normLoop_graphemes_chain P opts text 0 false
  have htrim : preChain 0 (trimEdges opts (normLoop P opts false (graphemesWithRanges text))) :=
    preChain_congr _ _ 0 (trimEdges_map_proj opts _).symm hchain
  exact unitsChain_of_preChain _ 0 htrim

/-! ### Helper lemmas: fuel irrelevance and unfolding equations for the LCS table -/

theorem lcsLenF_congr (a b : List Str) :
    ∀ (f₁ f₂ i j : Nat), i + j ≤ f₁ → i + j ≤ f₂ →
      lcsLenF a b f₁ i j = lcsLenF a b f₂ i j := by
  intro f₁
  induction f₁ with
  | zero =>
    intro f₂ i j h₁ _
    have hi : i = 0 := by omega
    subst hi
    cases f₂ with
    | zero => rfl
    | succ f => rfl
  | succ f ih =>
    intro f₂ i j h₁ h₂
    cases i with
    | zero =>
      cases f₂ with
      | zero => rfl
      | succ f₂' => rfl
    | succ i' =>
      cases j with
      | zero =>
        cases f₂ with
        | zero => omega
        | succ f₂' => rfl
      | succ j' =>
        cases f₂ with
        | zero => omega
        | succ f₂' =>
          simp only [lcsLenF]
          split
          · rw [ih f₂' i' j' (by omega) (by omega)]
          · rw [ih f₂' i' (j' + 1) (by omega) (by omega),
              ih f₂' (i' + 1) j' (by omega) (by omega)]

theorem lcsLen_zero_left (a b : List Str) (j : Nat) : lcsLen a b 0 j = 0 := by
  cases j <;> rfl

theorem lcsLen_zero_right (a b : List Str) (i : Nat) : lcsLen a b i 0 = 0 := by
  cases i <;> rfl

theorem lcsLen_succ_succ (a b : List Str) (i j : Nat) :
    lcsLen a b (i + 1) (j + 1) =
      if a.getD i [] = b.getD j [] then lcsLen a b i j + 1
      else max (lcsLen a b i (j + 1)) (lcsLen a b (i + 1) j) := by
  show lcsLenF a b (i + 1 + (j + 1)) (i + 1) (j + 1) = _
  have hf : i + 1 + (j + 1) = (i + j + 1) + 1 := by omega
  rw [hf]
  simp only [lcsLenF]
  split
  · rw [lcsLenF_congr a b (i + j + 1) (i + j) i j (by omega) (by omega)]
    rfl
  · rw [lcsLenF_congr a b (i + j + 1) (i + (j + 1)) i (j + 1) (by omega) (by omega),
      lcsLenF_congr a b (i + j + 1) (i + 1 + j) (i + 1) j (by omega) (by omega)]
    rfl

theorem lcsBackF_congr (a b : List Str) :
    ∀ (f₁ f₂ i j : Nat), i + j ≤ f₁ → i + j ≤ f₂ →
      lcsBackF a b f₁ i j = lcsBackF a b f₂ i j := by
  intro f₁
  induction f₁ with
  | zero =>
    intro f₂ i j h₁ _
    have hi : i = 0 := by omega
    subst hi
    cases f₂ with
    | zero => rfl
    | succ f => rfl
  | succ f ih =>
    intro f₂ i j h₁ h₂
    cases i with
    | zero =>
      cases f₂ with
      | zero => rfl
      | succ f₂' => rfl
    | succ i' =>
      cases j with
      | zero =>
        cases f₂ with
        | zero => omega
        | succ f₂' => rfl
      | succ j' =>
        cases f₂ with
        | zero => omega
        | succ f₂' =>
          simp only [lcsBackF]
          split
          · rw [ih f₂' i' j' (by omega) (by omega)]
          · split
            · rw [ih f₂' i' (j' + 1) (by omega) (by omega)]
            · rw [ih f₂' (i' + 1) j' (by omega) (by omega)]

theorem lcsBack_zero_left (a b : List Str) (j : Nat) : lcsBack a b 0 j = [] := by
  cases j <;> rfl

theorem lcsBack_zero_right (a b : List Str) (i : Nat) : lcsBack a b i 0 = [] := by
  cases i <;> rfl

theorem lcsBack_succ_succ (a b : List Str) (i j : Nat) :
    lcsBack a b (i + 1) (j + 1) =
      if a.getD i [] = b.getD j [] then i :: lcsBack a b i j
      else if lcsLen a b i (j + 1) ≥ lcsLen a b (i + 1) j then lcsBack a b i (j + 1)
      else lcsBack a b (i + 1) j := by
  show lcsBackF a b (i + 1 + (j + 1)) (i + 1) (j + 1) = _
  have hf : i + 1 + (j + 1) = (i + j + 1) + 1 := by omega
  rw [hf]
  simp only [lcsBackF]
  split
  · rw [lcsBackF_congr a b (i + j + 1) (i + j) i j (by omega) (by omega)]
    rfl
  · split
    · rw [lcsBackF_congr a b (i + j + 1) (i + (j + 1)) i (j + 1) (by omega) (by omega)]
      rfl
    · rw [lcsBackF_congr a b (i + j + 1) (i + 1 + j) (i + 1) j (by omega) (by omega)]
      rfl

theorem lcsExtractF_congr (a b : List Str) :
    ∀ (f₁ f₂ i j : Nat), i + j ≤ f₁ → i + j ≤ f₂ →
      lcsExtractF a b f₁ i j = lcsExtractF a b f₂ i j := by
  intro f₁
  induction f₁ with
  | zero =>
    intro f₂ i j h₁ _
    have hi : i = 0 := by omega
    subst hi
    cases f₂ with
    | zero => rfl
    | succ f => rfl
  | succ f ih =>
    intro f₂ i j h₁ h₂
    cases i with
    | zero =>
      cases f₂ with
      | zero => rfl
      | succ f₂' => rfl
    | succ i' =>
      cases j with
      | zero =>
        cases f₂ with
        | zero => omega
        | succ f₂' => rfl
      | succ j' =>
        cases f₂ with
        | zero => omega
        | succ f₂' =>
          simp only [lcsExtractF]
          split
          · rw [ih f₂' i' j' (by omega) (by omega)]
          · split
            · rw [ih f₂' i' (j' + 1) (by omega) (by omega)]
            · rw [ih f₂' (i' + 1) j' (by omega) (by omega)]

theorem lcsExtract_zero_left (a b : List Str) (j : Nat) : lcsExtract a b 0 j = [] := by
  cases j <;> rfl

theorem lcsExtract_zero_right (a b : List Str) (i : Nat) : lcsExtract a b i 0 = [] := by
  cases i <;> rfl

theorem lcsExtract_succ_succ (a b : List Str) (i j : Nat) :
    lcsExtract a b (i + 1) (j + 1) =
      if a.getD i [] = b.getD j [] then lcsExtract a b i j ++ [a.getD i []]
      else if lcsLen a b i (j + 1) ≥ lcsLen a b (i + 1) j then lcsExtract a b i (j + 1)
      else lcsExtract a b (i + 1) j := by
  show lcsExtractF a b (i + 1 + (j + 1)) (i + 1) (j + 1) = _
  have hf : i + 1 + (j + 1) = (i + j + 1) + 1 := by omega
  rw [hf]
  simp only [lcsExtractF]
  split
  · rw [lcsExtractF_congr a b (i + j + 1) (i + j) i j (by omega) (by omega)]
    rfl
  · split
    · rw [lcsExtractF_congr a b (i + j + 1) (i + (j + 1)) i (j + 1) (by omega) (by omega)]
      rfl
    · rw [lcsExtractF_congr a b (i + j + 1) (i + 1 + j) (i + 1) j (by omega) (by omega)]
      rfl

/-! ### Helper lemmas: the mask on the diagonal, run states, small facts -/

theorem lcsMatchMask_getD (a b : List Str) {i : Nat} (h : i < a.length) :
    (lcsMatchMask a b).getD i false = (lcsBack a b a.length b.length).contains i := by
  simp only [lcsMatchMask, List.getD_eq_getElem?_getD, List.getElem?_map,
    List.getElem?_range h, Option.map_some', Option.getD_some]

theorem lcsBack_diag_mem (a : List Str) :
    ∀ n : Nat, ∀ {i : Nat}, i < n → i ∈ lcsBack a a n n
  | 0, i, h => absurd h (Nat.not_lt_zero i)
  | n + 1, i, h => by
    rw [lcsBack_succ_succ, if_pos rfl]
    rcases Nat.lt_succ_iff_lt_or_eq.mp h with h' | h'
    · exact List.mem_cons_of_mem _ (lcsBack_diag_mem a n h')
    · exact h' ▸ List.mem_cons_self _ _

theorem normalizeForCompare_keys_length (P : Platform) (text : Str) (opts : WOpts) :
    (normalizeForCompare P text opts).keys.length
      = (normalizeForCompare P text opts).units.length := by
  simp [normalizeForCompare]

theorem buildRunsAux_ok_not_false (t : Str) (mask : List Bool) :
    ∀ (units : List CompUnit) (pos u : Nat),
      (∀ j, u ≤ j → j < u + units.length → mask.getD j false = true) →
      ∀ r ∈ buildRunsAux t mask pos u units, r.ok ≠ some false
  | [], pos, u, _, r, hr => by
    simp only [buildRunsAux] at hr
    split at hr
    · simp only [List.mem_singleton] at hr
      subst hr
      simp
    · simp at hr
  | unit :: rest, pos, u, h, r, hr => by
    simp only [buildRunsAux, List.mem_append, List.mem_cons] at hr
    rcases hr with hr | hr | hr
    · split at hr
      · simp only [List.mem_singleton] at hr
        subst hr
        simp
      · simp at hr
    · subst hr
      have := h u (Nat.le_refl u) (by simp)
      rw [List.getD_eq_getElem?_getD] at this
      simp [this]
    · exact buildRunsAux_ok_not_false t mask rest unit.rawEnd (u + 1)
        (fun j hj1 hj2 => h j (by omega) (by simp at hj2 ⊢; omega)) r hr

theorem buildRunsAux_chain_neutral (t : Str) (mask : List Bool) :
    ∀ (units : List CompUnit) (pos u : Nat),
      List.Chain' (fun a b => ¬(a.ok = none ∧ b.ok = none)) (buildRunsAux t mask pos u units)
  | [], pos, u => by
    simp only [buildRunsAux]
    split
    · simp
    · simp
  | unit :: rest, pos, u => by
    have ih := buildRunsAux_chain_neutral t mask rest unit.rawEnd (u + 1)
    simp only [buildRunsAux]
    split
    · simp only [List.singleton_append]
      rw [List.chain'_cons]
      refine ⟨by simp, ?_⟩
      rw [List.chain'_cons']
      exact ⟨fun y _ => by simp, ih⟩
    · simp only [List.nil_append]
      rw [List.chain'_cons']
      exact ⟨fun y _ => by simp, ih⟩

theorem normalizeForCompare_nil (P : Platform) (opts : WOpts) :
    normalizeForCompare P [] opts = ⟨[], [], [], 0⟩ := by
  simp [normalizeForCompare, graphemesWithRanges, graphemesFrom, normLoop, trimEdges,
    trimFront, buildRawToUnit]

/-! ### Claim theorems (first batch) -/

/-- C1: for every typed string, reference string and configuration,
concatenating the `text` fields of the runs returned by `diffCharsLCS`, in
order, yields the typed raw string exactly. -/
theorem C1_runs_losslessness (P : Platform) (typed target : Str) (opts : WOpts) :
    (((diffCharsLCS P typed target opts).runs).map fun r => r.text).flatten = typed := by
  have h := buildRunsAux_flatten typed
    (lcsMatchMask (normalizeForCompare P typed opts).keys
      (normalizeForCompare P target opts).keys)
    (normalizeForCompare P typed opts).units 0 0 (normalizeForCompare_chain P typed opts)
  simpa only [diffCharsLCS, List.drop_zero] using h

/-- C3 counterexample: on typed "ab" against reference "ab" with the default
configuration the run list contains two adjacent runs with the same match
state (both `match`), so "no two adjacent runs share the same matchState"
fails at this input. -/
theorem C3_counterexample :
    ¬ List.Chain' (fun a b => a.ok ≠ b.ok)
        (diffCharsLCS asciiPlatform ['a', 'b'] ['a', 'b'] defaultWritingOptions).runs := by
  have hruns : (diffCharsLCS asciiPlatform ['a', 'b'] ['a', 'b'] defaultWritingOptions).runs
      = [⟨['a'], some true⟩, ⟨['b'], some true⟩] := by decide
  rw [hruns]
  intro hc
  rw [List.chain'_cons] at hc
  exact hc.1 rfl

/-- C3 amended: the source emits one run per kept unit and never merges, so
adjacent runs may share a matchState; what does hold is that no two
adjacent runs are both neutral (gap runs are maximal), for all inputs. -/
theorem C3_amended_no_adjacent_neutral (P : Platform) (typed target : Str) (opts : WOpts) :
    List.Chain' (fun a b => ¬(a.ok = none ∧ b.ok = none))
      (diffCharsLCS P typed target opts).runs := by
  simp only [diffCharsLCS]
  exact buildRunsAux_chain_neutral typed _ _ 0 0

/-- C4: diffing any string against itself under any configuration yields
`exact = true`, and no run is marked `mismatch` (kept units are `match`,
dropped spans neutral). -/
theorem C4_self_identity (P : Platform) (X : Str) (opts : WOpts) :
    (diffCharsLCS P X X opts).exact = true ∧
      ((diffCharsLCS P X X opts).runs.all fun r => decide (r.ok ≠ some false)) = true := by
  constructor
  · simp [diffCharsLCS]
  · rw [List.all_eq_true]
    intro r hr
    rw [decide_eq_true_eq]
    have hmask : ∀ j, 0 ≤ j → j < 0 + (normalizeForCompare P X opts).units.length →
        (lcsMatchMask (normalizeForCompare P X opts).keys
          (normalizeForCompare P X opts).keys).getD j false = true := by
      intro j _ hj
      have hjk : j < (normalizeForCompare P X opts).keys.length := by
        rw [normalizeForCompare_keys_length]
        omega
      rw [lcsMatchMask_getD _ _ hjk]
      exact List.elem_iff.mpr (lcsBack_diag_mem _ _ hjk)
    have hall := buildRunsAux_ok_not_false X
      (lcsMatchMask (normalizeForCompare P X opts).keys (normalizeForCompare P X opts).keys)
      (normalizeForCompare P X opts).units 0 0 hmask
    simp only [diffCharsLCS] at hr
    exact hall r hr

/-- C5 divergence witness: typed "x \t" against reference "x" is `exact`
under the default configuration, but enabling the whitespace-collapse
relaxation alone flips `exact` to `false`: the collapse-dropped trailing
tab blocks the trailing edge-trim walk, so the typed side keeps a trailing
space key that the reference lacks. -/
theorem C5_code_divergence :
    (diffCharsLCS asciiPlatform ['x', ' ', '\t'] ['x'] defaultWritingOptions).exact = true ∧
      (diffCharsLCS asciiPlatform ['x', ' ', '\t'] ['x']
        { defaultWritingOptions with collapseWS := true }).exact = false := by
  decide

/-- C7: empty typed input yields no runs and no head/tail claims, for any
reference and configuration. -/
theorem C7_empty_typed (P : Platform) (target : Str) (opts : WOpts) :
    (diffCharsLCS P [] target opts).runs = [] ∧
      (diffCharsLCS P [] target opts).missingHeadRaw = [] ∧
      (diffCharsLCS P [] target opts).missingHeadEndRawIndex = none ∧
      (diffCharsLCS P [] target opts).missingTailRaw = [] ∧
      (diffCharsLCS P [] target opts).missingTailStartRawIndex = none := by
  simp [diffCharsLCS, normalizeForCompare_nil, boundaryScan, buildRunsAux]

/-- C10: when both sides normalize to empty key sequences the result is
`exact = true` and a non-empty typed raw string becomes one neutral run. -/
theorem C10_empty_keys_exact (P : Platform) (typed target : Str) (opts : WOpts)
    (h1 : (normalizeForCompare P typed opts).keys = [])
    (h2 : (normalizeForCompare P target opts).keys = []) :
    (diffCharsLCS P typed target opts).exact = true ∧
      (typed ≠ [] → (diffCharsLCS P typed target opts).runs = [⟨typed, none⟩]) := by
  have hu : (normalizeForCompare P typed opts).units = [] := by
    have hl := normalizeForCompare_keys_length P typed opts
    rw [h1] at hl
    exact List.eq_nil_of_length_eq_zero hl.symm
  refine ⟨by simp [diffCharsLCS, h1, h2], fun ht => ?_⟩
  have hlen : 0 < typed.length := List.length_pos.mpr ht
  simp [diffCharsLCS, hu, buildRunsAux, hlen]

/-- C10 witness: a whitespace-only typed string against the empty reference
under the default configuration (edge-trim on). -/
theorem C10_empty_keys_exact_witness :
    (diffCharsLCS asciiPlatform [' '] [] defaultWritingOptions).exact = true ∧
      (diffCharsLCS asciiPlatform [' '] [] defaultWritingOptions).runs = [⟨[' '], none⟩] := by
  have h := C10_empty_keys_exact asciiPlatform [' '] [] defaultWritingOptions
    (by decide) (by decide)
  exact ⟨h.1, h.2 (by decide)⟩

/-! ### Helper lemmas: the contiguous boundary search -/

theorem contigLen_le_left : ∀ a b : List Str, contigLen a b ≤ a.length
  | [], b => by cases b <;> simp [contigLen]
  | _ :: _, [] => by simp [contigLen]
  | x :: xs, y :: ys => by
    simp only [contigLen]
    split
    · simpa using contigLen_le_left xs ys
    · exact Nat.zero_le _

theorem contigLen_take_eq : ∀ a b : List Str, a.take (contigLen a b) = b.take (contigLen a b)
  | [], b => by cases b <;> simp [contigLen]
  | _ :: _, [] => by simp [contigLen]
  | x :: xs, y :: ys => by
    simp only [contigLen]
    split
    · next heq =>
      simp only [List.take_succ_cons, heq, List.cons.injEq, true_and]
      exact contigLen_take_eq xs ys
    · simp

theorem contigLen_pos : ∀ a b : List Str, a ≠ [] → b ≠ [] →
    a.getD 0 [] = b.getD 0 [] → 0 < contigLen a b
  | [], _, h, _, _ => absurd rfl h
  | _ :: _, [], _, h, _ => absurd rfl h
  | x :: xs, y :: ys, _, _, heq => by
    simp only [List.getD_cons_zero] at heq
    simp [contigLen, heq]

theorem contigLen_eq_zero : ∀ a b : List Str, ¬ a.getD 0 [] = b.getD 0 [] → contigLen a b = 0
  | [], b, _ => by cases b <;> rfl
  | _ :: _, [], _ => rfl
  | x :: xs, y :: ys, h => by
    simp only [List.getD_cons_zero] at h
    simp [contigLen, h]

theorem getD_drop_zero (gk : List Str) (s : Nat) : (gk.drop s).getD 0 [] = gk.getD s [] := by
  rw [List.getD_eq_getElem?_getD, List.getD_eq_getElem?_getD, List.getElem?_drop]
  simp

theorem contigAt_def (tk gk : List Str) (s : Nat) :
    contigLen tk (gk.drop s) = contigAt tk gk s := rfl

/-- What the boundary search guarantees about its result: a `none` anchor
means no candidate offset matched at all, and a `some` anchor carries the
measured contiguous length, is globally maximal, and is the earliest
offset achieving it. -/
def ScanPost (tk gk : List Str) (r : Option Nat × Nat) : Prop :=
  (r.1 = none → r.2 = 0 ∧ ∀ s' < gk.length, contigAt tk gk s' = 0) ∧
  (∀ s₀ m₀, r = (some s₀, m₀) →
    s₀ < gk.length ∧ contigAt tk gk s₀ = m₀ ∧ 0 < m₀ ∧
    (∀ s' < gk.length, contigAt tk gk s' ≤ m₀) ∧
    (∀ s' < s₀, contigAt tk gk s' < m₀))

/-- Loop invariant of the boundary search after scanning offsets `< s`. -/
def ScanInv (tk gk : List Str) (s : Nat) (best : Option Nat × Nat) : Prop :=
  (best = (none, 0) ∧ ∀ s' < s, contigAt tk gk s' = 0) ∨
  (∃ s₀ m₀, best = (some s₀, m₀) ∧ s₀ < s ∧ s₀ < gk.length ∧
    contigAt tk gk s₀ = m₀ ∧ 0 < m₀ ∧ m₀ < tk.length ∧
    (∀ s' < s, contigAt tk gk s' ≤ m₀) ∧ (∀ s' < s₀, contigAt tk gk s' < m₀))

theorem scanLoop_post (tk gk : List Str) (htk : 0 < tk.length) :
    ∀ (k s : Nat) (best : Option Nat × Nat), s + k = gk.length →
      ScanInv tk gk s best → ScanPost tk gk (scanLoop tk gk (List.range' s k) best) := by
  intro k
  induction k with
  | zero =>
    intro s best hsk hinv
    show ScanPost tk gk (scanLoop tk gk [] best)
    simp only [scanLoop]
    rcases hinv with ⟨hb, hall⟩ | ⟨s₀, m₀, hb, _, hs₀g, hc, hm0, _, hle, hlt⟩
    · subst hb
      refine ⟨fun _ => ⟨rfl, fun s' hs' => hall s' (by omega)⟩, fun s₁ m₁ h => ?_⟩
      simp at h
    · subst hb
      refine ⟨fun h => by simp at h, fun s₁ m₁ h => ?_⟩
      simp only [Prod.mk.injEq, Option.some.injEq] at h
      obtain ⟨h1, h2⟩ := h
      subst h1; subst h2
      exact ⟨hs₀g, hc, hm0, fun s' hs' => hle s' (by omega), hlt⟩
  | succ k ih =>
    intro s best hsk hinv
    have hs : s < gk.length := by omega
    rw [List.range'_succ]
    simp only [scanLoop, contigAt_def]
    by_cases hcand : tk.getD 0 [] = gk.getD s []
    · rw [if_pos hcand]
      have hmpos : 0 < contigAt tk gk s := by
        rw [← contigAt_def]
        apply contigLen_pos
        · intro h
          rw [h] at htk
          simp at htk
        · rw [ne_eq, List.drop_eq_nil_iff]
          omega
        · rw [getD_drop_zero]
          exact hcand
      have hmle : contigAt tk gk s ≤ tk.length := by
        rw [← contigAt_def]
        exact contigLen_le_left ..
      have hbest2 : best.2 < tk.length := by
        rcases hinv with ⟨hb, _⟩ | ⟨s₀, m₀, hb, _, _, _, _, hmlt, _, _⟩
        · rw [hb]; exact htk
        · rw [hb]; exact hmlt
      by_cases hfull : contigAt tk gk s = tk.length
      · rw [if_pos (by omega : best.2 < contigAt tk gk s), if_pos hfull]
        refine ⟨fun h => by simp at h, fun s₁ m₁ h => ?_⟩
        simp only [Prod.mk.injEq, Option.some.injEq] at h
        obtain ⟨h1, h2⟩ := h
        subst h1; subst h2
        refine ⟨hs, rfl, hmpos, ?_, ?_⟩
        · intro s' _
          have h1 : contigAt tk gk s' ≤ tk.length := by
            rw [← contigAt_def]
            exact contigLen_le_left ..
          omega
        · intro s' hs'
          rcases hinv with ⟨_, hall⟩ | ⟨s₀, m₀, _, _, _, _, _, hmlt, hle, _⟩
          · have h1 := hall s' hs'
            omega
          · have h1 := hle s' hs'
            omega
      · rw [if_neg hfull]
        by_cases hupd : best.2 < contigAt tk gk s
        · rw [if_pos hupd]
          apply ih (s + 1) (some s, contigAt tk gk s) (by omega)
          refine Or.inr ⟨s, contigAt tk gk s, rfl, by omega, hs, rfl, hmpos,
            by omega, ?_, ?_⟩
          · intro s' hs'
            rcases Nat.lt_succ_iff_lt_or_eq.mp hs' with h' | h'
            · rcases hinv with ⟨hb, hall⟩ | ⟨s₀, m₀, hb, _, _, _, _, _, hle, _⟩
              · have h1 := hall s' h'
                omega
              · have h1 := hle s' h'
                rw [hb] at hupd
                simp only [] at hupd
                omega
            · subst h'
              exact Nat.le_refl _
          · intro s' hs'
            rcases hinv with ⟨hb, hall⟩ | ⟨s₀, m₀, hb, _, _, _, _, _, hle, _⟩
            · have h1 := hall s' hs'
              omega
            · have h1 := hle s' hs'
              rw [hb] at hupd
              simp only [] at hupd
              omega
        · rw [if_neg hupd]
          apply ih (s + 1) best (by omega)
          rcases hinv with ⟨hb, hall⟩ | ⟨s₀, m₀, hb, hs₀, hs₀g, hc, hm0, hmlt, hle, hlt⟩
          · rw [hb] at hupd
            simp only [not_lt] at hupd
            omega
          · refine Or.inr ⟨s₀, m₀, hb, by omega, hs₀g, hc, hm0, hmlt, ?_, hlt⟩
            intro s' hs'
            rcases Nat.lt_succ_iff_lt_or_eq.mp hs' with h' | h'
            · exact hle s' h'
            · subst h'
              rw [hb] at hupd
              simp only [not_lt] at hupd
              exact hupd
    · rw [if_neg hcand]
      apply ih (s + 1) best (by omega)
      have hzero : contigAt tk gk s = 0 := by
        rw [← contigAt_def]
        apply contigLen_eq_zero
        rw [getD_drop_zero]
        exact hcand
      rcases hinv with ⟨hb, hall⟩ | ⟨s₀, m₀, hb, hs₀, hs₀g, hc, hm0, hmlt, hle, hlt⟩
      · refine Or.inl ⟨hb, ?_⟩
        intro s' hs'
        rcases Nat.lt_succ_iff_lt_or_eq.mp hs' with h' | h'
        · exact hall s' h'
        · subst h'
          exact hzero
      · refine Or.inr ⟨s₀, m₀, hb, by omega, hs₀g, hc, hm0, hmlt, ?_, hlt⟩
        intro s' hs'
        rcases Nat.lt_succ_iff_lt_or_eq.mp hs' with h' | h'
        · exact hle s' h'
        · subst h'
          rw [hzero]
          omega

theorem boundaryScan_post (tk gk : List Str) (htk : 0 < tk.length) :
    ScanPost tk gk (boundaryScan tk gk) := by
  rw [boundaryScan, if_pos htk, List.range_eq_range']
  exact scanLoop_post tk gk htk gk.length 0 (none, 0) (by omega)
    (Or.inl ⟨rfl, fun s' hs' => absurd hs' (Nat.not_lt_zero s')⟩)

/-! ### Claim theorems: boundary search -/

/-- C2 counterexample: typed "ab" against reference "acde" (defaults).  No
offset of the reference matches the whole typed key sequence contiguously
(the bounded check shows every contiguous match is shorter than the typed
length), yet a missingTail is asserted: index 2, text "de".  So the claim
that a tail is asserted only when the entire typed sequence matched
contiguously fails at this input. -/
theorem C2_counterexample :
    (diffCharsLCS asciiPlatform ['a', 'b'] ['a', 'c', 'd', 'e']
        defaultWritingOptions).missingTailStartRawIndex = some 2 ∧
      (diffCharsLCS asciiPlatform ['a', 'b'] ['a', 'c', 'd', 'e']
        defaultWritingOptions).missingTailRaw = ['d', 'e'] ∧
      ((List.range (normalizeForCompare asciiPlatform ['a', 'c', 'd', 'e']
          defaultWritingOptions).keys.length).all fun s =>
        decide (contigAt (normalizeForCompare asciiPlatform ['a', 'b']
            defaultWritingOptions).keys
          (normalizeForCompare asciiPlatform ['a', 'c', 'd', 'e']
            defaultWritingOptions).keys s
          < (normalizeForCompare asciiPlatform ['a', 'b']
              defaultWritingOptions).keys.length)) = true := by
  decide

/-- C2 amended: the source asserts a missingTail exactly when the boundary
search found an anchor `s` and `s` plus the typed key count is still inside
the reference unit list — the tail is measured by the typed length, and a
body mismatch does not suppress it. -/
theorem C2_amended_tail_iff (P : Platform) (typed target : Str) (opts : WOpts) :
    (diffCharsLCS P typed target opts).missingTailStartRawIndex ≠ none ↔
      (∃ s, (boundaryScan (normalizeForCompare P typed opts).keys
          (normalizeForCompare P target opts).keys).1 = some s ∧
        s + (normalizeForCompare P typed opts).keys.length
          < (normalizeForCompare P target opts).units.length) := by
  simp only [diffCharsLCS]
  cases hbs : (boundaryScan (normalizeForCompare P typed opts).keys
      (normalizeForCompare P target opts).keys).1 with
  | none => simp
  | some s =>
    split
    · next hlt => simp [hlt]
    · next hge => simp [hge]

/-- C6: when the boundary search anchors at `(s, m)`, the first `m` typed
keys equal the reference keys from offset `s`, `m` bounds the contiguous
match length of every reference offset, and the missingHead fields hold
the reference raw text strictly before the unit at offset `s` (absent for
`s = 0`). -/
theorem C6_boundary_locator (P : Platform) (typed target : Str) (opts : WOpts) (s m : Nat)
    (hscan : boundaryScan (normalizeForCompare P typed opts).keys
        (normalizeForCompare P target opts).keys = (some s, m)) :
    (normalizeForCompare P typed opts).keys.take m
        = ((normalizeForCompare P target opts).keys.drop s).take m ∧
      ((List.range (normalizeForCompare P target opts).keys.length).all fun j =>
        decide (contigAt (normalizeForCompare P typed opts).keys
          (normalizeForCompare P target opts).keys j ≤ m)) = true ∧
      (s = 0 → (diffCharsLCS P typed target opts).missingHeadEndRawIndex = none ∧
        (diffCharsLCS P typed target opts).missingHeadRaw = []) ∧
      (0 < s → (diffCharsLCS P typed target opts).missingHeadEndRawIndex
          = some (((normalizeForCompare P target opts).units.getD s default).rawStart) ∧
        (diffCharsLCS P typed target opts).missingHeadRaw
          = target.take (((normalizeForCompare P target opts).units.getD s
              default).rawStart)) := by
  have htk : 0 < (normalizeForCompare P typed opts).keys.length := by
    by_contra h
    rw [boundaryScan, if_neg h] at hscan
    simp at hscan
  have hpost := boundaryScan_post (normalizeForCompare P typed opts).keys
    (normalizeForCompare P target opts).keys htk
  rw [hscan] at hpost
  obtain ⟨hsg, hcm, hmpos, hle, hlt⟩ := hpost.2 s m rfl
  refine ⟨?_, ?_, ?_, ?_⟩
  · have h := contigLen_take_eq (normalizeForCompare P typed opts).keys
      ((normalizeForCompare P target opts).keys.drop s)
    rw [contigAt_def, hcm] at h
    exact h
  · rw [List.all_eq_true]
    intro j hj
    rw [List.mem_range] at hj
    rw [decide_eq_true_eq]
    exact hle j hj
  · intro hs0
    subst hs0
    constructor
    · simp only [diffCharsLCS]
      rw [hscan]
      simp
    · simp only [diffCharsLCS]
      rw [hscan]
      simp
  · intro hs0
    constructor
    · simp only [diffCharsLCS]
      rw [hscan]
      simp [hs0]
    · simp only [diffCharsLCS]
      rw [hscan]
      simp [hs0]

/-- C6 witness: typed "cd" against reference "abcd" (defaults): anchor at
offset 2 with full length 2, missingHead "ab" ending at raw index 2. -/
theorem C6_boundary_locator_witness :
    (normalizeForCompare asciiPlatform ['c', 'd'] defaultWritingOptions).keys.take 2
        = ((normalizeForCompare asciiPlatform ['a', 'b', 'c', 'd']
            defaultWritingOptions).keys.drop 2).take 2 ∧
      ((List.range (normalizeForCompare asciiPlatform ['a', 'b', 'c', 'd']
          defaultWritingOptions).keys.length).all fun j =>
        decide (contigAt (normalizeForCompare asciiPlatform ['c', 'd']
            defaultWritingOptions).keys
          (normalizeForCompare asciiPlatform ['a', 'b', 'c', 'd']
            defaultWritingOptions).keys j ≤ 2)) = true ∧
      (diffCharsLCS asciiPlatform ['c', 'd'] ['a', 'b', 'c', 'd']
          defaultWritingOptions).missingHeadEndRawIndex = some 2 ∧
      (diffCharsLCS asciiPlatform ['c', 'd'] ['a', 'b', 'c', 'd']
          defaultWritingOptions).missingHeadRaw = ['a', 'b'] := by
  have h := C6_boundary_locator asciiPlatform ['c', 'd'] ['a', 'b', 'c', 'd']
    defaultWritingOptions 2 2 (by decide)
  exact ⟨h.1, h.2.1, (h.2.2.2 (by decide)).1.trans (by decide),
    (h.2.2.2 (by decide)).2.trans (by decide)⟩

/-- C9: the boundary search keeps a later candidate only when strictly
longer, so the reported anchor is the earliest offset achieving the
maximal contiguous length: its contiguous length is `m` and every earlier
offset is strictly shorter.  (Determinism is immediate: the model is a
pure function of its inputs.) -/
theorem C9_earliest_anchor (P : Platform) (typed target : Str) (opts : WOpts) (s m : Nat)
    (hscan : boundaryScan (normalizeForCompare P typed opts).keys
        (normalizeForCompare P target opts).keys = (some s, m)) :
    contigAt (normalizeForCompare P typed opts).keys
        (normalizeForCompare P target opts).keys s = m ∧
      0 < m ∧
      ((List.range s).all fun j =>
        decide (contigAt (normalizeForCompare P typed opts).keys
          (normalizeForCompare P target opts).keys j < m)) = true := by
  have htk : 0 < (normalizeForCompare P typed opts).keys.length := by
    by_contra h
    rw [boundaryScan, if_neg h] at hscan
    simp at hscan
  have hpost := boundaryScan_post (normalizeForCompare P typed opts).keys
    (normalizeForCompare P target opts).keys htk
  rw [hscan] at hpost
  obtain ⟨_, hcm, hmpos, _, hlt⟩ := hpost.2 s m rfl
  refine ⟨hcm, hmpos, ?_⟩
  rw [List.all_eq_true]
  intro j hj
  rw [List.mem_range] at hj
  rw [decide_eq_true_eq]
  exact hlt j hj

/-- C9 witness: typed "b" against reference "abb": the anchor is the
earlier of the two matching offsets, offset 1 with length 1. -/
theorem C9_earliest_anchor_witness :
    contigAt (normalizeForCompare asciiPlatform ['b'] defaultWritingOptions).keys
        (normalizeForCompare asciiPlatform ['a', 'b', 'b'] defaultWritingOptions).keys 1 = 1 ∧
      0 < 1 ∧
      ((List.range 1).all fun j =>
        decide (contigAt (normalizeForCompare asciiPlatform ['b']
            defaultWritingOptions).keys
          (normalizeForCompare asciiPlatform ['a', 'b', 'b']
            defaultWritingOptions).keys j < 1)) = true :=
  C9_earliest_anchor asciiPlatform ['b'] ['a', 'b', 'b'] defaultWritingOptions 1 1 (by decide)

/-! ### Helper lemmas: LCS correctness -/

theorem take_succ_getD (l : List Str) {i : Nat} (h : i < l.length) :
    l.take (i + 1) = l.take i ++ [l.getD i []] := by
  rw [List.take_succ]
  congr 1
  rw [List.getD_eq_getElem?_getD, List.getElem?_eq_getElem h]
  rfl

theorem take_sublist_succ (l : List Str) (i : Nat) : (l.take i).Sublist (l.take (i + 1)) := by
  rcases Nat.lt_or_ge i l.length with h | h
  · rw [take_succ_getD l h]
    exact List.sublist_append_left _ _
  · rw [List.take_of_length_le h, List.take_of_length_le (by omega)]

theorem lcsLen_mono_incr (a b : List Str) :
    ∀ n i j, i + j ≤ n →
      lcsLen a b i j ≤ lcsLen a b (i + 1) j ∧
      lcsLen a b i j ≤ lcsLen a b i (j + 1) ∧
      lcsLen a b i (j + 1) ≤ lcsLen a b i j + 1 ∧
      lcsLen a b (i + 1) j ≤ lcsLen a b i j + 1 := by
  intro n
  induction n with
  | zero =>
    intro i j h
    have hi : i = 0 := by omega
    have hj : j = 0 := by omega
    subst hi; subst hj
    refine ⟨?_, ?_, ?_, ?_⟩ <;> simp [lcsLen_zero_left, lcsLen_zero_right]
  | succ n ih =>
    intro i j h
    rcases Nat.lt_or_ge (i + j) (n + 1) with hlt | hge
    · exact ih i j (by omega)
    cases i with
    | zero =>
      refine ⟨?_, ?_, ?_, ?_⟩
      · rw [lcsLen_zero_left]
        exact Nat.zero_le _
      · rw [lcsLen_zero_left]
        exact Nat.zero_le _
      · rw [lcsLen_zero_left, lcsLen_zero_left]
        omega
      · rw [lcsLen_zero_left]
        cases j with
        | zero =>
          rw [lcsLen_zero_right]
          omega
        | succ j'' =>
          rw [lcsLen_succ_succ a b 0 j'']
          split
          · rw [lcsLen_zero_left]
          · have h4 := (ih 0 j'' (by omega)).2.2.2
            rw [lcsLen_zero_left] at h4
            rw [lcsLen_zero_left]
            exact Nat.max_le.mpr ⟨by omega, by omega⟩
    | succ i'' =>
      cases j with
      | zero =>
        refine ⟨?_, ?_, ?_, ?_⟩
        · rw [lcsLen_zero_right, lcsLen_zero_right]
        · rw [lcsLen_zero_right]
          exact Nat.zero_le _
        · rw [lcsLen_zero_right]
          rw [lcsLen_succ_succ a b i'' 0]
          split
          · rw [lcsLen_zero_right]
          · have h3 := (ih i'' 0 (by omega)).2.2.1
            rw [lcsLen_zero_right] at h3
            rw [lcsLen_zero_right]
            exact Nat.max_le.mpr ⟨by omega, by omega⟩
        · rw [lcsLen_zero_right, lcsLen_zero_right]
          omega
      | succ j'' =>
        refine ⟨?_, ?_, ?_, ?_⟩
        · rw [lcsLen_succ_succ a b (i'' + 1) j'']
          split
          · exact (ih (i'' + 1) j'' (by omega)).2.2.1
          · exact Nat.le_max_left _ _
        · rw [lcsLen_succ_succ a b i'' (j'' + 1)]
          split
          · exact (ih i'' (j'' + 1) (by omega)).2.2.2
          · exact Nat.le_max_right _ _
        · rw [lcsLen_succ_succ a b i'' (j'' + 1)]
          split
          · have h1 := (ih i'' (j'' + 1) (by omega)).1
            omega
          · have h1 := (ih i'' (j'' + 1) (by omega)).2.2.1
            have h2 := (ih i'' (j'' + 1) (by omega)).1
            exact Nat.max_le.mpr ⟨by omega, by omega⟩
        · rw [lcsLen_succ_succ a b (i'' + 1) j'']
          split
          · have h1 := (ih (i'' + 1) j'' (by omega)).2.1
            omega
          · have h1 := (ih (i'' + 1) j'' (by omega)).2.2.2
            have h2 := (ih (i'' + 1) j'' (by omega)).2.1
            exact Nat.max_le.mpr ⟨by omega, by omega⟩

theorem lcsLen_upper (a b : List Str) :
    ∀ n i j, i + j ≤ n → i ≤ a.length → j ≤ b.length →
      ∀ u : List Str, u.Sublist (a.take i) → u.Sublist (b.take j) →
        u.length ≤ lcsLen a b i j := by
  intro n
  induction n with
  | zero =>
    intro i j h _ _ u hua _
    have hi : i = 0 := by omega
    subst hi
    rw [List.take_zero, List.sublist_nil] at hua
    subst hua
    simp
  | succ n ih =>
    intro i j h hia hjb u hua hub
    rcases Nat.lt_or_ge (i + j) (n + 1) with hlt | hge
    · exact ih i j (by omega) hia hjb u hua hub
    cases i with
    | zero =>
      rw [List.take_zero, List.sublist_nil] at hua
      subst hua
      simp
    | succ i'' =>
      cases j with
      | zero =>
        rw [List.take_zero, List.sublist_nil] at hub
        subst hub
        simp
      | succ j'' =>
        have hia' : i'' < a.length := by omega
        have hjb' : j'' < b.length := by omega
        have hua0 := hua
        have hub0 := hub
        rw [take_succ_getD a hia', List.sublist_append_iff] at hua
        rw [take_succ_getD b hjb', List.sublist_append_iff] at hub
        obtain ⟨u₁, u₂, hu, hu₁, hu₂⟩ := hua
        rw [List.sublist_singleton] at hu₂
        obtain ⟨v₁, v₂, hv, hv₁, hv₂⟩ := hub
        rw [List.sublist_singleton] at hv₂
        rcases hu₂ with hu₂ | hu₂
        · have hu' : u = u₁ := by rw [hu, hu₂, List.append_nil]
          have hub1 : u₁.Sublist (b.take (j'' + 1)) := by
            rw [← hu']
            exact hub0
          have hle := ih i'' (j'' + 1) (by omega) (by omega) hjb u₁ hu₁ hub1
          have hm := (lcsLen_mono_incr a b (i'' + (j'' + 1)) i'' (j'' + 1) (Nat.le_refl _)).1
          rw [hu']
          omega
        · rcases hv₂ with hv₂ | hv₂
          · have hv' : u = v₁ := by rw [hv, hv₂, List.append_nil]
            have hua1 : v₁.Sublist (a.take (i'' + 1)) := by
              rw [← hv']
              exact hua0
            have hle := ih (i'' + 1) j'' (by omega) hia (by omega) v₁ hua1 hv₁
            have hm := (lcsLen_mono_incr a b (i'' + 1 + j'') (i'' + 1) j'' (Nat.le_refl _)).2.1
            rw [hv']
            omega
          · rw [hu₂] at hu
            rw [hv₂] at hv
            have h2 := hu.symm.trans hv
            have h3 := List.append_inj' h2 rfl
            have hab : a.getD i'' [] = b.getD j'' [] := by simpa using h3.2
            have hu₁b : u₁.Sublist (b.take j'') := by
              rw [h3.1]
              exact hv₁
            have hle := ih i'' j'' (by omega) (by omega) (by omega) u₁ hu₁ hu₁b
            rw [lcsLen_succ_succ, if_pos hab, hu, List.length_append]
            simp only [List.length_cons, List.length_nil]
            omega

theorem lcsExtract_spec (a b : List Str) :
    ∀ n i j, i + j ≤ n → i ≤ a.length → j ≤ b.length →
      (lcsExtract a b i j).Sublist (a.take i) ∧
      (lcsExtract a b i j).Sublist (b.take j) ∧
      (lcsExtract a b i j).length = lcsLen a b i j := by
  intro n
  induction n with
  | zero =>
    intro i j h _ _
    have hi : i = 0 := by omega
    have hj : j = 0 := by omega
    subst hi; subst hj
    rw [lcsExtract_zero_left, lcsLen_zero_left]
    simp
  | succ n ih =>
    intro i j h hia hjb
    rcases Nat.lt_or_ge (i + j) (n + 1) with hlt | hge
    · exact ih i j (by omega) hia hjb
    cases i with
    | zero =>
      rw [lcsExtract_zero_left, lcsLen_zero_left]
      simp
    | succ i'' =>
      cases j with
      | zero =>
        rw [lcsExtract_zero_right, lcsLen_zero_right]
        simp
      | succ j'' =>
        have hia' : i'' < a.length := by omega
        have hjb' : j'' < b.length := by omega
        rw [lcsExtract_succ_succ, lcsLen_succ_succ]
        by_cases hab : a.getD i'' [] = b.getD j'' []
        · rw [if_pos hab, if_pos hab]
          obtain ⟨h1, h2, h3⟩ := ih i'' j'' (by omega) (by omega) (by omega)
          refine ⟨?_, ?_, ?_⟩
          · rw [take_succ_getD a hia']
            exact List.Sublist.append h1 (List.Sublist.refl _)
          · rw [take_succ_getD b hjb', hab]
            exact List.Sublist.append h2 (List.Sublist.refl _)
          · rw [List.length_append, h3]
            simp
        · rw [if_neg hab, if_neg hab]
          by_cases hge2 : lcsLen a b i'' (j'' + 1) ≥ lcsLen a b (i'' + 1) j''
          · rw [if_pos hge2]
            obtain ⟨h1, h2, h3⟩ := ih i'' (j'' + 1) (by omega) (by omega) hjb
            exact ⟨h1.trans (take_sublist_succ a i''), h2, by rw [h3, Nat.max_eq_left hge2]⟩
          · rw [if_neg hge2]
            obtain ⟨h1, h2, h3⟩ := ih (i'' + 1) j'' (by omega) hia (by omega)
            exact ⟨h1, h2.trans (take_sublist_succ b j''),
              by rw [h3, Nat.max_eq_right (by omega)]⟩

theorem lcsBack_lt (a b : List Str) :
    ∀ n i j, i + j ≤ n → ∀ x ∈ lcsBack a b i j, x < i := by
  intro n
  induction n with
  | zero =>
    intro i j h x hx
    have hi : i = 0 := by omega
    subst hi
    rw [lcsBack_zero_left] at hx
    simp at hx
  | succ n ih =>
    intro i j h x hx
    rcases Nat.lt_or_ge (i + j) (n + 1) with hlt | hge
    · exact ih i j (by omega) x hx
    cases i with
    | zero =>
      rw [lcsBack_zero_left] at hx
      simp at hx
    | succ i'' =>
      cases j with
      | zero =>
        rw [lcsBack_zero_right] at hx
        simp at hx
      | succ j'' =>
        rw [lcsBack_succ_succ] at hx
        split at hx
        · rcases List.mem_cons.mp hx with h' | h'
          · omega
          · have := ih i'' j'' (by omega) x h'
            omega
        · split at hx
          · have := ih i'' (j'' + 1) (by omega) x hx
            omega
          · exact ih (i'' + 1) j'' (by omega) x hx

theorem lcsBack_pairwise (a b : List Str) :
    ∀ n i j, i + j ≤ n → (lcsBack a b i j).Pairwise (fun x y => y < x) := by
  intro n
  induction n with
  | zero =>
    intro i j h
    have hi : i = 0 := by omega
    subst hi
    rw [lcsBack_zero_left]
    exact List.Pairwise.nil
  | succ n ih =>
    intro i j h
    rcases Nat.lt_or_ge (i + j) (n + 1) with hlt | hge
    · exact ih i j (by omega)
    cases i with
    | zero =>
      rw [lcsBack_zero_left]
      exact List.Pairwise.nil
    | succ i'' =>
      cases j with
      | zero =>
        rw [lcsBack_zero_right]
        exact List.Pairwise.nil
      | succ j'' =>
        rw [lcsBack_succ_succ]
        split
        · exact List.Pairwise.cons (fun y hy => lcsBack_lt a b (i'' + j'') i'' j''
            (Nat.le_refl _) y hy) (ih i'' j'' (by omega))
        · split
          · exact ih i'' (j'' + 1) (by omega)
          · exact ih (i'' + 1) j'' (by omega)

theorem lcsBack_reverse_map (a b : List Str) :
    ∀ n i j, i + j ≤ n →
      ((lcsBack a b i j).reverse.map fun k => a.getD k []) = lcsExtract a b i j := by
  intro n
  induction n with
  | zero =>
    intro i j h
    have hi : i = 0 := by omega
    subst hi
    rw [lcsBack_zero_left, lcsExtract_zero_left]
    rfl
  | succ n ih =>
    intro i j h
    rcases Nat.lt_or_ge (i + j) (n + 1) with hlt | hge
    · exact ih i j (by omega)
    cases i with
    | zero =>
      rw [lcsBack_zero_left, lcsExtract_zero_left]
      rfl
    | succ i'' =>
      cases j with
      | zero =>
        rw [lcsBack_zero_right, lcsExtract_zero_right]
        rfl
      | succ j'' =>
        rw [lcsBack_succ_succ, lcsExtract_succ_succ]
        by_cases hab : a.getD i'' [] = b.getD j'' []
        · rw [if_pos hab, if_pos hab, List.reverse_cons, List.map_append,
            ih i'' j'' (by omega)]
          rfl
        · rw [if_neg hab, if_neg hab]
          by_cases hge2 : lcsLen a b i'' (j'' + 1) ≥ lcsLen a b (i'' + 1) j''
          · rw [if_pos hge2, if_pos hge2]
            exact ih i'' (j'' + 1) (by omega)
          · rw [if_neg hge2, if_neg hge2]
            exact ih (i'' + 1) j'' (by omega)

theorem range_filter_contains :
    ∀ (m : Nat) (l : List Nat), (∀ x ∈ l, x < m) → l.Pairwise (fun x y => y < x) →
      ((List.range m).filter fun i => l.contains i) = l.reverse := by
  intro m
  induction m with
  | zero =>
    intro l hl _
    cases l with
    | nil => rfl
    | cons x xs => exact absurd (hl x (List.mem_cons_self x xs)) (by omega)
  | succ m ih =>
    intro l hl hp
    rw [List.range_succ, List.filter_append]
    by_cases hm : m ∈ l
    · cases l with
      | nil => simp at hm
      | cons hd t =>
        have hhd : hd = m := by
          rcases List.mem_cons.mp hm with h' | h'
          · omega
          · have h1 := (List.pairwise_cons.mp hp).1 m h'
            have h2 := hl hd (List.mem_cons_self hd t)
            omega
        subst hhd
        have ht : ((List.range hd).filter fun i => (hd :: t).contains i)
            = (List.range hd).filter fun i => t.contains i := by
          apply List.filter_congr
          intro x hx
          rw [List.mem_range] at hx
          rw [List.contains_cons]
          have hbeq : (x == hd) = false := by
            rw [beq_eq_false_iff_ne]
            omega
          rw [hbeq, Bool.false_or]
        have htail : ((List.range hd).filter fun i => t.contains i) = t.reverse := by
          apply ih t
          · intro x hx
            exact (List.pairwise_cons.mp hp).1 x hx
          · exact (List.pairwise_cons.mp hp).2
        have hsing : ((fun i => (hd :: t).contains i) hd) = true := by
          show (hd :: t).contains hd = true
          rw [List.contains_cons]
          simp
        rw [ht, htail, List.filter_cons, if_pos hsing, List.filter_nil, List.reverse_cons]
    · have hfm : (List.filter (fun i => l.contains i) [m]) = [] := by
        rw [List.filter_cons]
        have hc : l.contains m = false := by
          rw [Bool.eq_false_iff]
          intro hc
          exact hm (List.elem_iff.mp hc)
        rw [hc]
        simp
      rw [hfm, List.append_nil]
      apply ih l ?_ hp
      intro x hx
      have h1 := hl x hx
      have h2 : x ≠ m := fun he => hm (he ▸ hx)
      omega

theorem maskedKeys_lcsMatchMask (a b : List Str) :
    maskedKeys a (lcsMatchMask a b) = lcsExtract a b a.length b.length := by
  have hlt : ∀ x ∈ lcsBack a b a.length b.length, x < a.length :=
    lcsBack_lt a b (a.length + b.length) a.length b.length (Nat.le_refl _)
  have hpair : (lcsBack a b a.length b.length).Pairwise (fun x y => y < x) :=
    lcsBack_pairwise a b (a.length + b.length) a.length b.length (Nat.le_refl _)
  rw [maskedKeys]
  have hfc : ((List.range a.length).filter fun i => (lcsMatchMask a b).getD i false)
      = (List.range a.length).filter fun i => (lcsBack a b a.length b.length).contains i := by
    apply List.filter_congr
    intro x hx
    rw [List.mem_range] at hx
    exact lcsMatchMask_getD a b hx
  rw [hfc, range_filter_contains a.length _ hlt hpair]
  exact lcsBack_reverse_map a b (a.length + b.length) a.length b.length (Nat.le_refl _)

/-! ### Claim theorem: LCS mask correctness -/

/-- C8: the typed keys at the positions marked by `lcsMatchMask`, taken in
order, form a common subsequence of the two key sequences, and its length
is maximal among all common subsequences (so it is a longest common
subsequence). -/
theorem C8_lcs_mask_correct (a b : List Str) :
    (maskedKeys a (lcsMatchMask a b)).Sublist a ∧
      (maskedKeys a (lcsMatchMask a b)).Sublist b ∧
      ∀ u : List Str, u.Sublist a → u.Sublist b →
        u.length ≤ (maskedKeys a (lcsMatchMask a b)).length := by
  have hspec := lcsExtract_spec a b (a.length + b.length) a.length b.length
    (Nat.le_refl _) (Nat.le_refl _) (Nat.le_refl _)
  rw [List.take_length, List.take_length] at hspec
  rw [maskedKeys_lcsMatchMask]
  obtain ⟨h1, h2, h3⟩ := hspec
  refine ⟨h1, h2, ?_⟩
  intro u hua hub
  rw [h3]
  exact lcsLen_upper a b (a.length + b.length) a.length b.length
    (Nat.le_refl _) (Nat.le_refl _) (Nat.le_refl _) u
    (by rw [List.take_length]; exact hua) (by rw [List.take_length]; exact hub)

/-- C8 witness: keys "a x b" against "a b y": the mask marks "a" and "b",
a longest common subsequence, and the concrete common subsequence "a b" is
no longer than it. -/
theorem C8_lcs_mask_correct_witness :
    (maskedKeys [['a'], ['x'], ['b']]
        (lcsMatchMask [['a'], ['x'], ['b']] [['a'], ['b'], ['y']])).Sublist
      [['a'], ['x'], ['b']] ∧
      (maskedKeys [['a'], ['x'], ['b']]
        (lcsMatchMask [['a'], ['x'], ['b']] [['a'], ['b'], ['y']])).Sublist
      [['a'], ['b'], ['y']] ∧
      ([['a'], ['b']] : List Str).length ≤
        (maskedKeys [['a'], ['x'], ['b']]
          (lcsMatchMask [['a'], ['x'], ['b']] [['a'], ['b'], ['y']])).length := by
  have h := C8_lcs_mask_correct [['a'], ['x'], ['b']] [['a'], ['b'], ['y']]
  exact ⟨h.1, h.2.1, h.2.2 [['a'], ['b']] (by decide) (by decide)⟩
